import Mathlib

/-!
Shallow embedding of the hybrid retrieval engine of `secure-rag-mvp`:
the text segmenter (`src/app/chunker.py`) and the hybrid searcher
(`src/app/hybrid_search.py`).

Modelling conventions:
* Python floats are modelled as rationals (`ℚ`): the engine's arithmetic
  (min, max, subtraction, division, weighted sum, comparisons) is exact
  real arithmetic here; all concrete inputs in the claims are decimal
  literals, represented exactly.
* numpy 1-d arrays and Python lists are Lean `List`s; Python `int`s are `ℤ`.
* A Python call either returns a value, raises an exception (recorded by
  its message), or fails to terminate.  Loops are given explicit fuel;
  `diverge` for every fuel models an infinite loop.
* `np.argsort` with its default kind is introsort, which is NOT stable for
  arrays beyond its small-array cutoff, so the relative order of equal
  scores is unspecified in general.  The model below is the stable
  ascending sort — a determinization that coincides with numpy wherever
  numpy's behaviour is itself determined: on scores with no ties (any
  correct sort agrees) and on the tiny arrays of the concrete scenarios
  below (numpy falls back to insertion sort, which is stable).  No general
  theorem in this file relies on the model's tie order; general statements
  about `search` use only ascending sortedness of `argsort`, which every
  sort kind guarantees.
-/

/-- Outcome of running an embedded Python fragment: a normal value, a raised
exception (identified by its message), or non-termination under the
available fuel. -/
inductive PyResult (β : Type) where
  | ok : β → PyResult β
  | exn : String → PyResult β
  | diverge : PyResult β
  deriving DecidableEq, Repr

namespace Rag

variable {α σ τ : Type}

/-- Clamping of one Python slice bound for a sequence of length `n`:
a negative index counts from the end, and the result is clamped to
`[0, n]`. -/
def pyIdx (n : ℕ) (i : ℤ) : ℕ :=
  (if i < 0 then ((n : ℤ) + i).toNat else i.toNat).min n

/-- Python slice `xs[a:b]` (step 1), with Python's clamping of both bounds. -/
def pySlice (xs : List α) (a b : ℤ) : List α :=
  (xs.take (pyIdx xs.length b)).drop (pyIdx xs.length a)

/-- The `while start < len(text)` loop shared by `chunk_text`
(src/app/chunker.py lines 7-11) and `chunk_text_tokens` (lines 22-28):
each iteration appends `text[start : min(start + chunk_size, len(text))]`
and advances `start` by `chunk_size - overlap`.  The Python loop is
unbounded, so it takes explicit fuel here; running out of fuel models
non-termination. -/
def chunkTextLoop (chunk_size overlap : ℤ) (text : List α) : ℕ → ℤ → PyResult (List (List α))
  | 0, _ => .diverge
  | fuel + 1, start =>
    if start < (text.length : ℤ) then
      match chunkTextLoop chunk_size overlap text fuel (start + (chunk_size - overlap)) with
      | .ok rest =>
          .ok (pySlice text start (min (start + chunk_size) (text.length : ℤ)) :: rest)
      | r => r
    else .ok []

/-- `chunk_text(text, chunk_size, overlap)` (src/app/chunker.py lines 2-12):
character-mode sliding-window segmentation.  The fuel `text.length + 1`
is enough for every terminating run (each iteration advances `start` by at
least one when `overlap < chunk_size`). -/
def chunk_text (text : List α) (chunk_size overlap : ℤ) : PyResult (List (List α)) :=
  chunkTextLoop chunk_size overlap text (text.length + 1) 0

/-- An external tokenizer (e.g. tiktoken): `encode` to a token sequence and
`decode` back to text.  Not implemented by the engine; injected. -/
structure Tokenizer (σ τ : Type) where
  encode : σ → List τ
  decode : List τ → σ

/-- `chunk_text_tokens(text, chunk_size, overlap, tokenizer)`
(src/app/chunker.py lines 14-29): raises if no tokenizer is supplied,
otherwise runs the same sliding-window loop over the encoded token list and
decodes each token slice back to text. -/
def chunk_text_tokens (text : σ) (chunk_size overlap : ℤ)
    (tokenizer : Option (Tokenizer σ τ)) : PyResult (List σ) :=
  match tokenizer with
  | none => .exn "Tokenizer required for token-based chunking."
  | some tok =>
    match chunkTextLoop chunk_size overlap (tok.encode text) ((tok.encode text).length + 1) 0 with
    | .ok slices => .ok (slices.map tok.decode)
    | .exn e => .exn e
    | .diverge => .diverge

/-- Overlap-deduplicated concatenation of a chunk list: the first chunk in
full, every later chunk with its leading `overlap` elements removed. -/
def reconstructChunks (overlap : ℕ) : List (List α) → List α
  | [] => []
  | first :: rest => first ++ (rest.map (List.drop overlap)).flatten

/-- `np.array(v).min()`: raises `ValueError` on a zero-size array, otherwise
the least element (used at src/app/hybrid_search.py line 98). -/
def npMin : List ℚ → PyResult ℚ
  | [] => .exn "zero-size array to reduction operation minimum which has no identity"
  | x :: xs => .ok (xs.foldl min x)

/-- `np.array(v).max()`: raises `ValueError` on a zero-size array, otherwise
the greatest element (src/app/hybrid_search.py line 99). -/
def npMax : List ℚ → PyResult ℚ
  | [] => .exn "zero-size array to reduction operation maximum which has no identity"
  | x :: xs => .ok (xs.foldl max x)

/-- `HybridSearcher._normalize_scores` (src/app/hybrid_search.py lines
92-106): min-max normalization, with the constant-vector case mapped to an
array of 0.5 (`np.full_like`). -/
def normalize_scores (scores : List ℚ) : PyResult (List ℚ) :=
  match npMin scores with
  | .ok min_score =>
    match npMax scores with
    | .ok max_score =>
      if max_score = min_score then .ok (scores.map fun _ => (1 : ℚ) / 2)
      else .ok (scores.map fun s => (s - min_score) / (max_score - min_score))
    | .exn e => .exn e
    | .diverge => .diverge
  | .exn e => .exn e
  | .diverge => .diverge

/-- numpy element-wise addition of two 1-d arrays, including numpy's
broadcasting rule: equal lengths add element-wise, a length-1 operand is
broadcast across the other, and any other length mismatch raises. -/
def npAdd (xs ys : List ℚ) : PyResult (List ℚ) :=
  if xs.length = ys.length then .ok (List.zipWith (· + ·) xs ys)
  else if xs.length = 1 then .ok (ys.map fun y => xs.headD 0 + y)
  else if ys.length = 1 then .ok (xs.map fun x => x + ys.headD 0)
  else .exn "operands could not be broadcast together"

/-- The comparison `np.argsort` sorts index `i` before index `j` by:
strictly smaller score, or equal score and smaller position (stability). -/
def argsortLe (scores : List ℚ) (i j : ℕ) : Prop :=
  scores.getD i 0 < scores.getD j 0 ∨ (scores.getD i 0 = scores.getD j 0 ∧ i ≤ j)

instance (scores : List ℚ) : DecidableRel (argsortLe scores) := fun i j => by
  unfold argsortLe; infer_instance

/-- `np.argsort(scores)` (ascending).  numpy's default sort is unstable on
larger arrays, so tie order is an implementation detail there; this model
fixes the stable order, which matches numpy exactly on tie-free scores and
on small arrays (insertion-sort regime).  General theorems use only that
the result sorts `scores` ascending, which holds for every sort kind. -/
def argsort (scores : List ℚ) : List ℕ :=
  List.insertionSort (argsortLe scores) (List.range scores.length)

/-- `HybridSearcher.search` (src/app/hybrid_search.py lines 54-90), given
the BM25 score vector `bm25_scores` that `self.bm25.get_scores` (external
rank_bm25 library) produced for the query: normalize both vectors, combine
with the configured weights, then `np.argsort(combined)[::-1][:top_k]` and
pair each selected index with its combined score. -/
def HybridSearcher.search (bm25_weight semantic_weight : ℚ)
    (bm25_scores semantic_scores : List ℚ) (top_k : ℤ) : PyResult (List (ℕ × ℚ)) :=
  match normalize_scores bm25_scores with
  | .ok bm25_scores_norm =>
    match normalize_scores semantic_scores with
    | .ok semantic_scores_norm =>
      match npAdd (bm25_scores_norm.map fun s => bm25_weight * s)
          (semantic_scores_norm.map fun s => semantic_weight * s) with
      | .ok combined_scores =>
        .ok ((pySlice (argsort combined_scores).reverse 0 top_k).map
          fun idx => (idx, combined_scores.getD idx 0))
      | .exn e => .exn e
      | .diverge => .diverge
    | .exn e => .exn e
    | .diverge => .diverge
  | .exn e => .exn e
  | .diverge => .diverge

/-- `create_hybrid_searcher(chunks).search(...)` (src/app/hybrid_search.py
lines 109-119): the factory fixes `bm25_weight = 0.3` and
`semantic_weight = 0.7`. -/
def create_hybrid_searcher_search (bm25_scores semantic_scores : List ℚ)
    (top_k : ℤ) : PyResult (List (ℕ × ℚ)) :=
  HybridSearcher.search (3/10) (7/10) bm25_scores semantic_scores top_k

/-! ### Basic facts about Python slicing -/

lemma pyIdx_of_nonneg (n : ℕ) (i : ℤ) (h : 0 ≤ i) : pyIdx n i = min i.toNat n := by
  simp [pyIdx, not_lt.mpr h]

lemma pySlice_of_nonneg (xs : List α) (a b : ℤ) (ha : 0 ≤ a) (hb : 0 ≤ b) :
    pySlice xs a b = (xs.take b.toNat).drop a.toNat := by
  unfold pySlice
  rw [pyIdx_of_nonneg _ _ ha, pyIdx_of_nonneg _ _ hb]
  have h1 : xs.take (min b.toNat xs.length) = xs.take b.toNat := by
    apply List.take_eq_take.mpr
    omega
  rw [h1]
  rcases le_or_lt a.toNat xs.length with h | h
  · rw [min_eq_left h]
  · rw [List.drop_eq_nil_of_le (by simp [List.length_take]; omega),
      List.drop_eq_nil_of_le (by simp [List.length_take]; omega)]

/-! ### The sliding-window loop: divergence, termination, chunk count -/

lemma chunkTextLoop_succ (c o : ℤ) (text : List α) (fuel : ℕ) (start : ℤ) :
    chunkTextLoop c o text (fuel + 1) start
      = if start < (text.length : ℤ) then
          match chunkTextLoop c o text fuel (start + (c - o)) with
          | .ok rest => .ok (pySlice text start (min (start + c) (text.length : ℤ)) :: rest)
          | r => r
        else .ok [] := rfl

lemma chunkTextLoop_diverge (c o : ℤ) (hco : c ≤ o) (text : List α) (ht : text ≠ []) :
    ∀ (fuel : ℕ) (start : ℤ), start ≤ 0 → chunkTextLoop c o text fuel start = .diverge := by
  intro fuel
  induction fuel with
  | zero => intro start _; rfl
  | succ n ih =>
    intro start hs
    have hlen : text.length ≠ 0 := by simpa [List.length_eq_zero] using ht
    rw [chunkTextLoop_succ, if_pos (by omega), ih (start + (c - o)) (by omega)]

lemma ceil_div_step (n d : ℕ) (hd : 0 < d) (hn : 0 < n) :
    (n - d + d - 1) / d + 1 = (n + d - 1) / d := by
  rcases le_or_lt n d with h | h
  · have h1 : n - d = 0 := by omega
    have ha : (0 + d - 1) / d = 0 := Nat.div_eq_of_lt (by omega)
    have hb : (n + d - 1) / d = 1 := by
      have h1d : 1 * d ≤ n + d - 1 := by omega
      have h2d : n + d - 1 < (1 + 1) * d := by omega
      exact Nat.div_eq_of_lt_le h1d h2d
    rw [h1, ha, hb]
  · have h2 : n + d - 1 = n - d + d - 1 + d := by omega
    rw [h2, Nat.add_div_right _ hd]

lemma chunkTextLoop_run (c o : ℤ) (ho : 0 ≤ o) (hco : o < c) (text : List α) :
    ∀ (fuel : ℕ) (start : ℤ), 0 ≤ start → (text.length : ℤ) ≤ start + fuel * (c - o) →
      ∃ l, chunkTextLoop c o text (fuel + 1) start = .ok l ∧
        l.length = (((text.length : ℤ) - start).toNat + (c - o).toNat - 1) / (c - o).toNat := by
  intro fuel
  induction fuel with
  | zero =>
    intro start _ hle
    refine ⟨[], ?_, ?_⟩
    · rw [chunkTextLoop_succ, if_neg (by push_cast at hle ⊢; omega)]
    · have hz : (((text.length : ℤ) - start).toNat + (c - o).toNat - 1) / (c - o).toNat = 0 :=
        Nat.div_eq_of_lt (by push_cast at hle ⊢; omega)
      rw [hz]
      rfl
  | succ n ih =>
    intro start h0 hle
    by_cases hguard : start < (text.length : ℤ)
    · have hle' : (text.length : ℤ) ≤ start + (c - o) + n * (c - o) := by
        have hring : ((n : ℤ) + 1) * (c - o) = (c - o) + n * (c - o) := by ring
        push_cast at hle
        linarith
      obtain ⟨l, hl, hlen⟩ := ih (start + (c - o)) (by omega) hle'
      refine ⟨pySlice text start (min (start + c) (text.length : ℤ)) :: l, ?_, ?_⟩
      · rw [chunkTextLoop_succ, if_pos hguard, hl]
      · simp only [List.length_cons, hlen]
        have harg : ((text.length : ℤ) - (start + (c - o))).toNat
            = ((text.length : ℤ) - start).toNat - (c - o).toNat := by omega
        rw [harg]
        exact ceil_div_step _ _ (by omega) (by omega)
    · refine ⟨[], ?_, ?_⟩
      · rw [chunkTextLoop_succ, if_neg hguard]
      · have hz : (((text.length : ℤ) - start).toNat + (c - o).toNat - 1) / (c - o).toNat = 0 :=
          Nat.div_eq_of_lt (by omega)
        rw [hz]
        rfl

lemma chunk_text_ok (c o : ℤ) (ho : 0 ≤ o) (hco : o < c) (text : List α) :
    ∃ l, chunk_text text c o = .ok l ∧
      l.length = (text.length + (c - o).toNat - 1) / (c - o).toNat := by
  have hfuel : (text.length : ℤ) ≤ 0 + (text.length : ℤ) * (c - o) := by
    have h1 : (text.length : ℤ) * 1 ≤ (text.length : ℤ) * (c - o) :=
      mul_le_mul_of_nonneg_left (by omega) (by positivity)
    linarith
  obtain ⟨l, hl, hlen⟩ := chunkTextLoop_run c o ho hco text text.length 0 le_rfl (by
    push_cast
    push_cast at hfuel
    linarith)
  refine ⟨l, hl, ?_⟩
  rw [hlen]
  have hz : ((text.length : ℤ) - 0).toNat = text.length := by omega
  rw [hz]

/-! ### Chunk contents: overlap-stripped concatenation, suffix chunks -/

lemma chunkTextLoop_strip_flatten (c o : ℤ) (ho : 0 ≤ o) (hco : o < c) (text : List α) :
    ∀ (fuel : ℕ) (start : ℤ) (l : List (List α)), 0 ≤ start →
      chunkTextLoop c o text fuel start = .ok l →
      (l.map (List.drop o.toNat)).flatten
        = text.drop (min (start + o) (text.length : ℤ)).toNat := by
  intro fuel
  induction fuel with
  | zero =>
    intro start l _ h
    rw [show chunkTextLoop c o text 0 start = PyResult.diverge from rfl] at h
    exact PyResult.noConfusion h
  | succ n ih =>
    intro start l h0 h
    rw [chunkTextLoop_succ] at h
    by_cases hguard : start < (text.length : ℤ)
    · rw [if_pos hguard] at h
      cases hrec : chunkTextLoop c o text n (start + (c - o)) with
      | ok rest =>
        simp only [hrec] at h
        injection h with h'
        subst h'
        have hIH := ih (start + (c - o)) rest (by omega) hrec
        have harg : start + (c - o) + o = start + c := by ring
        rw [harg] at hIH
        simp only [List.map_cons, List.flatten_cons, hIH]
        rw [pySlice_of_nonneg _ _ _ h0 (by omega), List.drop_drop]
        rcases le_or_lt (start + o) (min (start + c) (text.length : ℤ)) with hle | hlt
        · rw [List.drop_take]
          have hBA : text.drop (min (start + c) (text.length : ℤ)).toNat
              = List.drop ((min (start + c) (text.length : ℤ)).toNat
                  - (start.toNat + o.toNat)) (text.drop (start.toNat + o.toNat)) := by
            rw [List.drop_drop]
            congr 1
            omega
          rw [hBA, List.take_append_drop]
          congr 1
          omega
        · rw [show (min (start + c) (text.length : ℤ)).toNat = text.length by omega,
            List.take_length, List.drop_length,
            List.drop_eq_nil_of_le (by omega : text.length ≤ start.toNat + o.toNat),
            show (min (start + o) (text.length : ℤ)).toNat = text.length by omega,
            List.drop_length]
          rfl
      | exn e =>
        simp only [hrec] at h
        exact PyResult.noConfusion h
      | diverge =>
        simp only [hrec] at h
        exact PyResult.noConfusion h
    · rw [if_neg hguard] at h
      injection h with h'
      subst h'
      rw [show (min (start + o) (text.length : ℤ)).toNat = text.length by omega,
        List.drop_length]
      rfl

lemma chunkTextLoop_suffix (c o : ℤ) (ho : 0 ≤ o) (hco : o < c) (text : List α) :
    ∀ (fuel : ℕ) (start : ℤ) (l : List (List α)), 0 ≤ start →
      (text.length : ℤ) ≤ start + c →
      chunkTextLoop c o text fuel start = .ok l →
      ∀ ch ∈ l, ch <:+ text := by
  intro fuel
  induction fuel with
  | zero =>
    intro start l _ _ h
    rw [show chunkTextLoop c o text 0 start = PyResult.diverge from rfl] at h
    exact PyResult.noConfusion h
  | succ n ih =>
    intro start l h0 hlenc h
    rw [chunkTextLoop_succ] at h
    by_cases hguard : start < (text.length : ℤ)
    · rw [if_pos hguard] at h
      cases hrec : chunkTextLoop c o text n (start + (c - o)) with
      | ok rest =>
        simp only [hrec] at h
        injection h with h'
        subst h'
        intro ch hch
        rcases List.mem_cons.mp hch with hhd | htl
        · subst hhd
          rw [pySlice_of_nonneg _ _ _ h0 (by omega),
            show (min (start + c) (text.length : ℤ)).toNat = text.length by omega,
            List.take_length]
          exact List.drop_suffix _ _
        · exact ih (start + (c - o)) rest (by omega) (by omega) hrec ch htl
      | exn e =>
        simp only [hrec] at h
        exact PyResult.noConfusion h
      | diverge =>
        simp only [hrec] at h
        exact PyResult.noConfusion h
    · rw [if_neg hguard] at h
      injection h with h'
      subst h'
      intro ch hch
      exact absurd hch (List.not_mem_nil ch)

/-! ### Claim C2 -/

/-- C2: with `overlap >= chunk_size` the sliding-window loops of `chunk_text`
and `chunk_text_tokens` never terminate on non-empty input — for every fuel
the loop is still running, so the code neither raises a configuration error
nor returns a partial result.  (The spec requires a fast
`ConfigurationError`; the code has no such check, so this records what the
code actually does.) -/
theorem chunk_text_overlap_ge_size_diverges (c o : ℤ) (hco : c ≤ o)
    (text : List α) (ht : text ≠ []) (stext : σ) (tok : Tokenizer σ τ)
    (htok : tok.encode stext ≠ []) :
    (∀ fuel, chunkTextLoop c o text fuel 0 = .diverge) ∧
    chunk_text text c o = .diverge ∧
    chunk_text_tokens stext c o (some tok) = .diverge := by
  refine ⟨fun fuel => chunkTextLoop_diverge c o hco text ht fuel 0 le_rfl,
    chunkTextLoop_diverge c o hco text ht _ 0 le_rfl, ?_⟩
  simp only [chunk_text_tokens]
  rw [chunkTextLoop_diverge c o hco (tok.encode stext) htok _ 0 le_rfl]

/-- Witness for C2 at `chunk_size = 1`, `overlap = 1`, one-element text. -/
theorem chunk_text_overlap_ge_size_diverges_witness :
    ((1 : ℤ) ≤ 1 ∧ ([0] : List ℕ) ≠ []) ∧
    chunkTextLoop 1 1 ([0] : List ℕ) 5 0 = .diverge ∧
    chunk_text ([0] : List ℕ) 1 1 = .diverge := by
  have h := chunk_text_overlap_ge_size_diverges 1 1 (by decide) ([0] : List ℕ)
    (by decide) (0 : ℕ) ⟨fun _ => [0], fun _ => 0⟩ (by decide)
  exact ⟨⟨le_rfl, by decide⟩, h.1 5, h.2.1⟩

/-! ### Claim C9 -/

/-- C9: for `0 ≤ overlap < chunk_size`, both `chunk_text` and
`chunk_text_tokens` terminate and produce exactly
`ceil(len / (chunk_size - overlap))` chunks (over the character list for
`chunk_text`, over the encoded token list for `chunk_text_tokens`); the
ceiling is written `(len + d - 1) / d` in natural division, which is `0`
for empty input. -/
theorem chunk_terminates_ceil_count (c o : ℤ) (ho : 0 ≤ o) (hco : o < c)
    (text : List α) (stext : σ) (tok : Tokenizer σ τ) :
    (∃ l, chunk_text text c o = .ok l ∧
      l.length = (text.length + (c - o).toNat - 1) / (c - o).toNat) ∧
    (∃ l, chunk_text_tokens stext c o (some tok) = .ok l ∧
      l.length = ((tok.encode stext).length + (c - o).toNat - 1) / (c - o).toNat) := by
  refine ⟨chunk_text_ok c o ho hco text, ?_⟩
  obtain ⟨l, hl, hlen⟩ := chunk_text_ok c o ho hco (tok.encode stext)
  refine ⟨l.map tok.decode, ?_, by simpa using hlen⟩
  simp only [chunk_text_tokens]
  rw [show chunkTextLoop c o (tok.encode stext) ((tok.encode stext).length + 1) 0
    = PyResult.ok l from hl]

/-- Witness for C9: 5 characters, `chunk_size = 3`, `overlap = 1` give
`ceil(5/2) = 3` chunks. -/
theorem chunk_terminates_ceil_count_witness :
    ((0 : ℤ) ≤ 1 ∧ (1 : ℤ) < 3) ∧
    (∃ l, chunk_text ([0, 1, 2, 3, 4] : List ℕ) 3 1 = .ok l ∧
      l.length = (([0, 1, 2, 3, 4] : List ℕ).length + ((3 : ℤ) - 1).toNat - 1)
        / ((3 : ℤ) - 1).toNat) := by
  have h := chunk_terminates_ceil_count 3 1 (by decide) (by decide)
    ([0, 1, 2, 3, 4] : List ℕ) (0 : ℕ) ⟨fun _ => [0], fun _ => 0⟩
  exact ⟨⟨by decide, by decide⟩, h.1⟩

/-! ### Claim C8 -/

/-- C8: for `0 ≤ overlap < chunk_size`, concatenating the chunks of
`chunk_text`, with the leading `overlap` characters removed from every chunk
after the first, reconstructs the input text exactly. -/
theorem chunk_text_reconstructs (c o : ℤ) (ho : 0 ≤ o) (hco : o < c)
    (text : List α) (l : List (List α)) (h : chunk_text text c o = .ok l) :
    reconstructChunks o.toNat l = text := by
  unfold chunk_text at h
  rw [chunkTextLoop_succ] at h
  by_cases hguard : (0 : ℤ) < (text.length : ℤ)
  · rw [if_pos hguard] at h
    cases hrec : chunkTextLoop c o text text.length (0 + (c - o)) with
    | ok rest =>
      simp only [hrec] at h
      injection h with h'
      subst h'
      have hIH := chunkTextLoop_strip_flatten c o ho hco text text.length
        (0 + (c - o)) rest (by omega) hrec
      have harg : 0 + (c - o) + o = 0 + c := by ring
      rw [harg] at hIH
      show pySlice text 0 (min (0 + c) (text.length : ℤ)) ++ _ = text
      rw [hIH, pySlice_of_nonneg _ _ _ le_rfl (by omega)]
      rw [show ((0 : ℤ)).toNat = 0 from rfl, List.drop_zero]
      exact List.take_append_drop _ _
    | exn e =>
      simp only [hrec] at h
      exact PyResult.noConfusion h
    | diverge =>
      simp only [hrec] at h
      exact PyResult.noConfusion h
  · rw [if_neg hguard] at h
    injection h with h'
    subst h'
    have hnil : text = [] := List.length_eq_zero.mp (by omega)
    rw [hnil]
    rfl

/-- Witness for C8: `chunk_text [0,1,2,3,4] 3 1 = [[0,1,2],[2,3,4],[4]]`,
and stripping one leading element from each later chunk reconstructs the
input. -/
theorem chunk_text_reconstructs_witness :
    chunk_text ([0, 1, 2, 3, 4] : List ℕ) 3 1
      = .ok [[0, 1, 2], [2, 3, 4], [4]] ∧
    reconstructChunks (1 : ℤ).toNat [[0, 1, 2], [2, 3, 4], [4]]
      = ([0, 1, 2, 3, 4] : List ℕ) := by
  have hrun : chunk_text ([0, 1, 2, 3, 4] : List ℕ) 3 1
      = .ok [[0, 1, 2], [2, 3, 4], [4]] := by decide
  exact ⟨hrun, chunk_text_reconstructs 3 1 (by decide) (by decide) _ _ hrun⟩

/-! ### Claim C10 -/

/-- C10: when the text length equals `chunk_size` and `0 < overlap <
chunk_size`, `chunk_text` returns more than one chunk, the first chunk is
the whole text, and every later chunk is a suffix of the text (hence wholly
contained in the first chunk, contributing no new characters). -/
theorem chunk_text_len_eq_size_suffix_chunks (c o : ℤ) (ho : 0 < o)
    (hco : o < c) (text : List α) (hlen : (text.length : ℤ) = c)
    (l : List (List α)) (h : chunk_text text c o = .ok l) :
    2 ≤ l.length ∧ l.head? = some text ∧ ∀ ch ∈ l.tail, ch <:+ text := by
  obtain ⟨l', hl', hcount⟩ := chunk_text_ok c o (le_of_lt ho) hco text
  rw [h] at hl'
  injection hl' with h''
  subst h''
  refine ⟨?_, ?_, ?_⟩
  · rw [hcount]
    have hd : 0 < (c - o).toNat := by omega
    rw [Nat.le_div_iff_mul_le hd]
    omega
  · unfold chunk_text at h
    rw [chunkTextLoop_succ, if_pos (by omega)] at h
    cases hrec : chunkTextLoop c o text text.length (0 + (c - o)) with
    | ok rest =>
      simp only [hrec] at h
      injection h with h'
      rw [← h']
      simp only [List.head?_cons, Option.some.injEq]
      rw [pySlice_of_nonneg _ _ _ le_rfl (by omega),
        show (min (0 + c) (text.length : ℤ)).toNat = text.length by omega,
        List.take_length, show ((0 : ℤ)).toNat = 0 from rfl, List.drop_zero]
    | exn e =>
      simp only [hrec] at h
      exact PyResult.noConfusion h
    | diverge =>
      simp only [hrec] at h
      exact PyResult.noConfusion h
  · intro ch hch
    exact chunkTextLoop_suffix c o (le_of_lt ho) hco text _ 0 l le_rfl (by omega)
      h ch (List.mem_of_mem_tail hch)

/-- Witness for C10: a 5-character text with `chunk_size = 5`,
`overlap = 2` yields the two chunks `[[0,1,2,3,4],[3,4]]`; the second is
exactly the final `overlap` characters. -/
theorem chunk_text_len_eq_size_suffix_chunks_witness :
    chunk_text ([0, 1, 2, 3, 4] : List ℕ) 5 2 = .ok [[0, 1, 2, 3, 4], [3, 4]] ∧
    2 ≤ ([[0, 1, 2, 3, 4], [3, 4]] : List (List ℕ)).length ∧
    ([[0, 1, 2, 3, 4], [3, 4]] : List (List ℕ)).head? = some [0, 1, 2, 3, 4] ∧
    ∀ ch ∈ ([[0, 1, 2, 3, 4], [3, 4]] : List (List ℕ)).tail,
      ch <:+ ([0, 1, 2, 3, 4] : List ℕ) := by
  have hrun : chunk_text ([0, 1, 2, 3, 4] : List ℕ) 5 2
      = .ok [[0, 1, 2, 3, 4], [3, 4]] := by decide
  exact ⟨hrun,
    chunk_text_len_eq_size_suffix_chunks 5 2 (by decide) (by decide) _ (by decide) _ hrun⟩

/-! ### Folded minima and maxima of score vectors -/

lemma foldl_min_mem : ∀ (xs : List ℚ) (x : ℚ), xs.foldl min x ∈ x :: xs := by
  intro xs
  induction xs with
  | nil => intro x; simp
  | cons a l ih =>
    intro x
    simp only [List.foldl_cons]
    rcases List.mem_cons.mp (ih (min x a)) with h | h
    · rw [h]
      rcases min_choice x a with hc | hc <;> rw [hc] <;> simp
    · simp [h]

lemma foldl_max_mem : ∀ (xs : List ℚ) (x : ℚ), xs.foldl max x ∈ x :: xs := by
  intro xs
  induction xs with
  | nil => intro x; simp
  | cons a l ih =>
    intro x
    simp only [List.foldl_cons]
    rcases List.mem_cons.mp (ih (max x a)) with h | h
    · rw [h]
      rcases max_choice x a with hc | hc <;> rw [hc] <;> simp
    · simp [h]

lemma foldl_min_le : ∀ (xs : List ℚ) (x : ℚ), ∀ y ∈ x :: xs, xs.foldl min x ≤ y := by
  intro xs
  induction xs with
  | nil =>
    intro x y hy
    rw [List.mem_singleton.mp hy]
    simp
  | cons a l ih =>
    intro x y hy
    simp only [List.foldl_cons]
    rcases List.mem_cons.mp hy with h | h
    · rw [h]
      exact le_trans (ih (min x a) _ (List.mem_cons_self _ _)) (min_le_left x a)
    · rcases List.mem_cons.mp h with h2 | h2
      · rw [h2]
        exact le_trans (ih (min x a) _ (List.mem_cons_self _ _)) (min_le_right x a)
      · exact ih (min x a) y (List.mem_cons.mpr (Or.inr h2))

lemma le_foldl_max : ∀ (xs : List ℚ) (x : ℚ), ∀ y ∈ x :: xs, y ≤ xs.foldl max x := by
  intro xs
  induction xs with
  | nil =>
    intro x y hy
    rw [List.mem_singleton.mp hy]
    simp
  | cons a l ih =>
    intro x y hy
    simp only [List.foldl_cons]
    rcases List.mem_cons.mp hy with h | h
    · rw [h]
      exact le_trans (le_max_left x a) (ih (max x a) _ (List.mem_cons_self _ _))
    · rcases List.mem_cons.mp h with h2 | h2
      · rw [h2]
        exact le_trans (le_max_right x a) (ih (max x a) _ (List.mem_cons_self _ _))
      · exact ih (max x a) y (List.mem_cons.mpr (Or.inr h2))

/-! ### Claim C4 -/

/-- C4: `_normalize_scores` is min-max scaling.  On a constant vector
(`max == min`, including all-zero and singleton vectors) every output is
exactly `0.5`; on a non-constant vector every output is
`(x - min) / (max - min)` and lies in `[0, 1]`. -/
theorem normalize_minmax_scaling (v : List ℚ) (hv : v ≠ []) :
    ((∀ x ∈ v, ∀ y ∈ v, x = y) →
      normalize_scores v = .ok (v.map fun _ => (1 : ℚ) / 2)) ∧
    (∀ m M, npMin v = .ok m → npMax v = .ok M → M ≠ m →
      normalize_scores v = .ok (v.map fun x => (x - m) / (M - m)) ∧
      ∀ x ∈ v, 0 ≤ (x - m) / (M - m) ∧ (x - m) / (M - m) ≤ 1) := by
  rcases v with _ | ⟨z, zs⟩
  · exact absurd rfl hv
  constructor
  · intro hconst
    have heq : zs.foldl max z = zs.foldl min z :=
      hconst _ (foldl_max_mem zs z) _ (foldl_min_mem zs z)
    simp only [normalize_scores, npMin, npMax]
    rw [if_pos heq]
  · intro m M hm hM hne
    have hm' : zs.foldl min z = m := by
      have h : PyResult.ok (zs.foldl min z) = PyResult.ok m := hm
      injection h
    have hM' : zs.foldl max z = M := by
      have h : PyResult.ok (zs.foldl max z) = PyResult.ok M := hM
      injection h
    subst hm'
    subst hM'
    refine ⟨?_, ?_⟩
    · simp only [normalize_scores, npMin, npMax]
      rw [if_neg hne]
    · intro x hx
      have hxm : zs.foldl min z ≤ x := foldl_min_le zs z x hx
      have hxM : x ≤ zs.foldl max z := le_foldl_max zs z x hx
      have hmM : zs.foldl min z ≤ zs.foldl max z := le_trans hxm hxM
      have hlt : zs.foldl min z < zs.foldl max z :=
        lt_of_le_of_ne hmM (Ne.symm hne)
      have hpos : 0 < zs.foldl max z - zs.foldl min z := by linarith
      exact ⟨div_nonneg (by linarith) (le_of_lt hpos),
        (div_le_one hpos).mpr (by linarith)⟩

/-- Witness for C4: a constant vector normalizes to `[0.5, 0.5]`; the
vector `[2, 0]` normalizes to `[1, 0]`, within `[0, 1]`. -/
theorem normalize_minmax_scaling_witness :
    normalize_scores [(4 : ℚ), 4] = .ok [1 / 2, 1 / 2] ∧
    normalize_scores [(2 : ℚ), 0] = .ok [1, 0] := by
  have h1 := (normalize_minmax_scaling [(4 : ℚ), 4] (by simp)).1 (by
    intro x hx y hy
    simp at hx hy
    rw [hx, hy])
  have h2 := (normalize_minmax_scaling [(2 : ℚ), 0] (by simp)).2 0 2
    (by norm_num [npMin, min_def]) (by norm_num [npMax, max_def]) (by norm_num)
  constructor
  · rw [h1]
    norm_num
  · rw [h2.1]
    norm_num

/-! ### Claim C3 -/

/-- C3: on an empty passage collection the engine raises instead of
returning an empty ranked list: `_normalize_scores([])` hits `np.min` of a
zero-size array (`ValueError`), so `search` over zero chunks with an empty
semantic vector raises rather than returning `[]`.  (In the source the
constructor `HybridSearcher.__init__` already raises inside
`BM25Okapi([])` — a division by zero in the external library — before
`search` can even run.) -/
theorem empty_collection_raises :
    normalize_scores ([] : List ℚ)
      = .exn "zero-size array to reduction operation minimum which has no identity" ∧
    create_hybrid_searcher_search [] [] 10
      = .exn "zero-size array to reduction operation minimum which has no identity" :=
  ⟨rfl, rfl⟩

/-! ### Claim C5 -/

/-- C5: with equal-length normalized vectors the fused score vector is the
element-wise weighted sum `lexical_weight * lexical_norm[i] +
semantic_weight * semantic_norm[i]`; and the factory-weighted engine
(weights 0.3 / 0.7) on lexical scores `[2,0,2,0]`, semantic scores
`[0.1,0.9,0.5,0.5]`, `top_k = 2` returns indices `[1, 2]` with fused
scores `0.7` and `0.65`. -/
theorem fused_scores_weighted_sum (wl ws : ℚ) (bn sn : List ℚ)
    (h : bn.length = sn.length) :
    npAdd (bn.map fun s => wl * s) (sn.map fun s => ws * s)
      = .ok (List.zipWith (fun b s => wl * b + ws * s) bn sn) ∧
    create_hybrid_searcher_search [2, 0, 2, 0] [1 / 10, 9 / 10, 1 / 2, 1 / 2] 2
      = .ok [(1, 7 / 10), (2, 13 / 20)] := by
  constructor
  · unfold npAdd
    rw [if_pos (by simp [h]), List.zipWith_map]
  · norm_num [create_hybrid_searcher_search, HybridSearcher.search, normalize_scores,
      npMin, npMax, npAdd, argsort, argsortLe, pySlice, pyIdx, List.range_succ,
      min_def, max_def]
    simp

/-- Witness for C5 at concrete weights `2, 3` and vectors `[5,6]`, `[7,8]`. -/
theorem fused_scores_weighted_sum_witness :
    npAdd ([(5 : ℚ), 6].map fun s => 2 * s) ([(7 : ℚ), 8].map fun s => 3 * s)
      = .ok (List.zipWith (fun b s => 2 * b + 3 * s) [(5 : ℚ), 6] [(7 : ℚ), 8]) :=
  (fused_scores_weighted_sum 2 3 [5, 6] [7, 8] rfl).1

/-! ### Claim C6 -/

/-- C6: the engine does not check that the semantic score vector matches
the collection size.  With 2 passages and a length-1 semantic vector,
numpy broadcasting silently stretches the single (degenerate-normalized)
semantic score across both passages and `search` returns a full ranked
list — no eager dimension-mismatch error is raised. -/
theorem semantic_length_one_broadcasts :
    create_hybrid_searcher_search [0, 2] [7] 10 = .ok [(1, 13 / 20), (0, 7 / 20)] := by
  norm_num [create_hybrid_searcher_search, HybridSearcher.search, normalize_scores,
    npMin, npMax, npAdd, argsort, argsortLe, pySlice, pyIdx, List.range_succ,
    min_def, max_def, Int.toNat_ofNat]

/-! ### Claim C7 -/

/-- C7: `search` performs no `top_k` validation.  `top_k = 0` returns the
empty list (Python slice `[:0]`) and `top_k = -1` returns the ranked list
with its last entry dropped (slice `[:-1]`) — no `ConfigurationError` is
raised for non-positive `top_k`. -/
theorem nonpositive_top_k_returns_list :
    create_hybrid_searcher_search [0, 2] [1, 5] 0 = .ok [] ∧
    create_hybrid_searcher_search [0, 2] [1, 5] (-1) = .ok [(1, 1)] := by
  constructor <;>
    norm_num [create_hybrid_searcher_search, HybridSearcher.search, normalize_scores,
      npMin, npMax, npAdd, argsort, argsortLe, pySlice, pyIdx, List.range_succ,
      min_def, max_def, Int.toNat_ofNat]

/-! ### Claim C1: order of the ranked list -/

lemma argsortLe_total (scores : List ℚ) : IsTotal ℕ (argsortLe scores) := by
  constructor
  intro a b
  unfold argsortLe
  rcases lt_trichotomy (scores.getD a 0) (scores.getD b 0) with h | h | h
  · exact Or.inl (Or.inl h)
  · rcases le_total a b with hab | hab
    · exact Or.inl (Or.inr ⟨h, hab⟩)
    · exact Or.inr (Or.inr ⟨h.symm, hab⟩)
  · exact Or.inr (Or.inl h)

lemma argsortLe_trans (scores : List ℚ) : IsTrans ℕ (argsortLe scores) := by
  constructor
  intro a b d hab hbd
  unfold argsortLe at hab hbd ⊢
  rcases hab with h1 | ⟨h1, h1'⟩ <;> rcases hbd with h2 | ⟨h2, h2'⟩
  · exact Or.inl (h1.trans h2)
  · exact Or.inl (by rw [← h2]; exact h1)
  · exact Or.inl (by rw [h1]; exact h2)
  · exact Or.inr ⟨h1.trans h2, h1'.trans h2'⟩

lemma pySlice_zero_start (xs : List α) (k : ℤ) :
    pySlice xs 0 k = xs.take (pyIdx xs.length k) := by
  unfold pySlice
  rw [pyIdx_of_nonneg _ 0 le_rfl]
  simp

/-- The ranked result list built from `np.argsort(scores)[::-1][:top_k]`
is sorted by score descending.  Only ascending sortedness of `argsort` is
used — a property of every numpy sort kind, stable or not; the model's tie
order plays no role here. -/
lemma ranked_output_sorted (scores : List ℚ) (k : ℤ) :
    List.Pairwise (fun p q : ℕ × ℚ => q.2 ≤ p.2)
      ((pySlice (argsort scores).reverse 0 k).map fun idx => (idx, scores.getD idx 0)) := by
  haveI := argsortLe_total scores
  haveI := argsortLe_trans scores
  have hsorted : List.Pairwise (argsortLe scores) (argsort scores) :=
    List.sorted_insertionSort _ _
  have hle : List.Pairwise (fun a b : ℕ => scores.getD a 0 ≤ scores.getD b 0)
      (argsort scores) := by
    refine hsorted.imp ?_
    intro a b hab
    rcases hab with h | ⟨h, _⟩
    · exact le_of_lt h
    · exact le_of_eq h
  have hrev : List.Pairwise (fun a b : ℕ => scores.getD b 0 ≤ scores.getD a 0)
      (argsort scores).reverse := List.pairwise_reverse.mpr hle
  have hslice : List.Pairwise (fun a b : ℕ => scores.getD b 0 ≤ scores.getD a 0)
      (pySlice (argsort scores).reverse 0 k) := by
    rw [pySlice_zero_start]
    exact List.Pairwise.sublist (List.take_sublist _ _) hrev
  rw [List.pairwise_map]
  exact hslice

/-- C1 (amended): every ranked list returned by `HybridSearcher.search` is
sorted by fused score descending.  The claimed deterministic ascending
`sequence_index`-then-`id` tie-break does not hold (see the
counterexample); with numpy's default unstable argsort the relative order
of tied passages is unspecified in general, so only the descending-score
ordering — which holds for every sort kind — is asserted. -/
theorem search_sorted_fused_desc (bm25_weight semantic_weight : ℚ)
    (bm25_scores semantic_scores : List ℚ) (top_k : ℤ) (l : List (ℕ × ℚ))
    (h : HybridSearcher.search bm25_weight semantic_weight bm25_scores
      semantic_scores top_k = .ok l) :
    List.Pairwise (fun p q : ℕ × ℚ => q.2 ≤ p.2) l := by
  unfold HybridSearcher.search at h
  cases h1 : normalize_scores bm25_scores with
  | ok bn =>
    simp only [h1] at h
    cases h2 : normalize_scores semantic_scores with
    | ok sn =>
      simp only [h2] at h
      cases h3 : npAdd (bn.map fun s => bm25_weight * s)
          (sn.map fun s => semantic_weight * s) with
      | ok combined =>
        simp only [h3] at h
        injection h with h'
        rw [← h']
        exact ranked_output_sorted combined top_k
      | exn e =>
        simp only [h3] at h
        exact PyResult.noConfusion h
      | diverge =>
        simp only [h3] at h
        exact PyResult.noConfusion h
    | exn e =>
      simp only [h2] at h
      exact PyResult.noConfusion h
    | diverge =>
      simp only [h2] at h
      exact PyResult.noConfusion h
  | exn e =>
    simp only [h1] at h
    exact PyResult.noConfusion h
  | diverge =>
    simp only [h1] at h
    exact PyResult.noConfusion h

/-- Witness for C1 (amended claim) on the factory-weighted example. -/
theorem search_sorted_fused_desc_witness :
    List.Pairwise (fun p q : ℕ × ℚ => q.2 ≤ p.2)
      [((1 : ℕ), (7 : ℚ) / 10), (2, 13 / 20)] :=
  search_sorted_fused_desc (3 / 10) (7 / 10) [2, 0, 2, 0]
    [1 / 10, 9 / 10, 1 / 2, 1 / 2] 2 _ (by
      norm_num [HybridSearcher.search, normalize_scores, npMin, npMax, npAdd,
        argsort, argsortLe, pySlice, pyIdx, List.range_succ, min_def, max_def]
      simp)

/-- C1 counterexample: two passages whose fused scores tie come back as
index 1 before index 0 — descending index order, refuting the claimed
ascending tie-break. -/
theorem search_tie_ascending_counterexample :
    create_hybrid_searcher_search [1, 1] [3, 3] 10 = .ok [(1, 1 / 2), (0, 1 / 2)] ∧
    ¬ List.Pairwise (fun p q : ℕ × ℚ => q.2 < p.2 ∨ (p.2 = q.2 ∧ p.1 < q.1))
      [((1 : ℕ), (1 : ℚ) / 2), (0, 1 / 2)] := by
  constructor
  · norm_num [create_hybrid_searcher_search, HybridSearcher.search, normalize_scores,
      npMin, npMax, npAdd, argsort, argsortLe, pySlice, pyIdx, List.range_succ,
      min_def, max_def, Int.toNat_ofNat]
  · intro hpair
    have h2 := List.rel_of_pairwise_cons hpair (List.mem_singleton.mpr rfl)
    rcases h2 with h3 | ⟨h3, h4⟩
    · exact absurd h3 (by norm_num)
    · exact absurd h4 (by norm_num)

end Rag
